import Mathlib

/-!
Verification of the token-bounded batcher `batch_docs` from the repository's
embedding notebook.  The Python function walks an ordered sequence of
documents, keeps a running token total and an open batch, raises
`ValueError("Single document exceeds token limit: {tokens} tokens")` when a
single document is over the limit, closes the open batch whenever the next
document would push the total over the limit, and flushes the final
non-empty batch.

The shallow embedding below is parametric in the document type `α` and in a
token-counting function `tok : α → Nat` (in the source, `tok` is
`len(encoding.encode(document["content"]))` for a fixed tiktoken encoding).
Failure is modelled with `Except String`, carrying the exact message string
the source builds.
-/

namespace TokenBatcher

/-- The message of the `ValueError` the source raises for an oversized
document: `f"Single document exceeds token limit: {tokens} tokens"`. -/
def oversizedMsg (tokens : Nat) : String :=
  "Single document exceeds token limit: " ++ toString tokens ++ " tokens"

/-- The body of the `for document in documents:` loop of `batch_docs`,
together with the final flush.  State: the accumulated `batches`, the
running `current_tokens` total, and the open batch `current_docs`. -/
def batchLoop {α : Type} (tok : α → Nat) (token_limit : Nat) :
    List α → List (List α) → Nat → List α → Except String (List (List α))
  | [], batches, _, current_docs =>
      if current_docs.isEmpty then Except.ok batches
      else Except.ok (batches ++ [current_docs])
  | document :: rest, batches, current_tokens, current_docs =>
      if tok document > token_limit then
        Except.error (oversizedMsg (tok document))
      else if current_tokens + tok document > token_limit then
        batchLoop tok token_limit rest (batches ++ [current_docs])
          (tok document) [document]
      else
        batchLoop tok token_limit rest batches (current_tokens + tok document)
          (current_docs ++ [document])

/-- Embedding of `batch_docs(documents, model, token_limit)`: the loop is
entered with `batches = []`, `current_tokens = 0`, `current_docs = []`. -/
def batch_docs {α : Type} (tok : α → Nat) (token_limit : Nat)
    (documents : List α) : Except String (List (List α)) :=
  batchLoop tok token_limit documents [] 0 []

/-- Total token count of a batch, `sum(len(encoding.encode(d["content"])))`. -/
def tokSum {α : Type} (tok : α → Nat) (b : List α) : Nat :=
  (b.map tok).sum

theorem tokSum_nil {α : Type} (tok : α → Nat) : tokSum tok [] = 0 := rfl

theorem tokSum_append {α : Type} (tok : α → Nat) (a b : List α) :
    tokSum tok (a ++ b) = tokSum tok a + tokSum tok b := by
  simp [tokSum]

/-- The `batches` accumulator is only ever appended to: the loop run with
accumulator `b1 ++ b2` returns `b1 ++` whatever the run with accumulator
`b2` returns. -/
theorem batchLoop_append {α : Type} (tok : α → Nat) (L : Nat) :
    ∀ (docs : List α) (b1 b2 : List (List α)) (ct : Nat) (cd : List α),
      batchLoop tok L docs (b1 ++ b2) ct cd =
        (batchLoop tok L docs b2 ct cd).map (fun bs => b1 ++ bs) := by
  intro docs
  induction docs with
  | nil =>
      intro b1 b2 ct cd
      by_cases h : cd.isEmpty <;> simp [batchLoop, h, Except.map]
  | cons d rest ih =>
      intro b1 b2 ct cd
      by_cases h1 : tok d > L
      · simp [batchLoop, h1, Except.map]
      · by_cases h2 : ct + tok d > L
        · simp only [batchLoop, if_neg h1, if_pos h2, List.append_assoc]
          exact ih b1 (b2 ++ [cd]) (tok d) [d]
        · simp only [batchLoop, if_neg h1, if_neg h2]
          exact ih b1 b2 (ct + tok d) (cd ++ [d])

/-- Normalisation: a run with accumulator `bs0` is `bs0 ++` the run with
empty accumulator. -/
theorem batchLoop_acc {α : Type} (tok : α → Nat) (L : Nat)
    (docs : List α) (bs0 : List (List α)) (ct : Nat) (cd : List α) :
    batchLoop tok L docs bs0 ct cd =
      (batchLoop tok L docs [] ct cd).map (fun bs => bs0 ++ bs) := by
  have h := batchLoop_append tok L docs bs0 [] ct cd
  simpa using h

/-- Joining the batches returned by the loop recovers the open batch
followed by the remaining input. -/
theorem batchLoop_join {α : Type} (tok : α → Nat) (L : Nat) :
    ∀ (docs : List α) (ct : Nat) (cd : List α) (bs : List (List α)),
      batchLoop tok L docs [] ct cd = Except.ok bs → bs.flatten = cd ++ docs := by
  intro docs
  induction docs with
  | nil =>
      intro ct cd bs h
      by_cases hcd : cd.isEmpty
      · simp only [batchLoop, if_pos hcd, Except.ok.injEq] at h
        subst h
        simp [List.isEmpty_iff] at hcd
        simp [hcd]
      · simp only [batchLoop, if_neg hcd, Except.ok.injEq] at h
        subst h
        simp
  | cons d rest ih =>
      intro ct cd bs h
      by_cases h1 : tok d > L
      · simp [batchLoop, h1] at h
      · by_cases h2 : ct + tok d > L
        · simp only [batchLoop, if_neg h1, if_pos h2, List.nil_append] at h
          rw [show [cd] = [cd] ++ ([] : List (List α)) by simp,
            batchLoop_append] at h
          cases hrec : batchLoop tok L rest [] (tok d) [d] with
          | error e => rw [hrec] at h; simp [Except.map] at h
          | ok bs2 =>
              rw [hrec] at h
              simp only [Except.map, Except.ok.injEq] at h
              subst h
              have := ih (tok d) [d] bs2 hrec
              simp [this]
        · simp only [batchLoop, if_neg h1, if_neg h2] at h
          have := ih (ct + tok d) (cd ++ [d]) bs h
          simpa using this

/-- Every batch returned by the loop has token sum at most the limit,
provided the running total matches the open batch and is within the
limit. -/
theorem batchLoop_sums {α : Type} (tok : α → Nat) (L : Nat) :
    ∀ (docs : List α) (ct : Nat) (cd : List α) (bs : List (List α)),
      ct = tokSum tok cd → ct ≤ L →
      batchLoop tok L docs [] ct cd = Except.ok bs →
      ∀ b ∈ bs, tokSum tok b ≤ L := by
  intro docs
  induction docs with
  | nil =>
      intro ct cd bs hct hle h
      by_cases hcd : cd.isEmpty
      · simp only [batchLoop, if_pos hcd, Except.ok.injEq] at h
        subst h; intro b hb; simp at hb
      · simp only [batchLoop, if_neg hcd, Except.ok.injEq] at h
        subst h
        intro b hb
        simp only [List.nil_append, List.mem_singleton] at hb
        subst hb
        exact hct ▸ hle
  | cons d rest ih =>
      intro ct cd bs hct hle h
      by_cases h1 : tok d > L
      · simp [batchLoop, h1] at h
      · by_cases h2 : ct + tok d > L
        · simp only [batchLoop, if_neg h1, if_pos h2, List.nil_append] at h
          rw [show [cd] = [cd] ++ ([] : List (List α)) by simp,
            batchLoop_append] at h
          cases hrec : batchLoop tok L rest [] (tok d) [d] with
          | error e => rw [hrec] at h; simp [Except.map] at h
          | ok bs2 =>
              rw [hrec] at h
              simp only [Except.map, Except.ok.injEq] at h
              subst h
              intro b hb
              rcases List.mem_append.mp hb with hb | hb
              · simp only [List.mem_singleton] at hb
                subst hb
                exact hct ▸ hle
              · exact ih (tok d) [d] bs2 (by simp [tokSum])
                  (le_of_not_lt h1) hrec b hb
        · simp only [batchLoop, if_neg h1, if_neg h2] at h
          exact ih (ct + tok d) (cd ++ [d]) bs
            (by rw [tokSum_append, ← hct]; simp [tokSum])
            (le_of_not_lt h2) h

/-- The loop never emits an empty batch, provided the open batch is empty
only when the running total is zero. -/
theorem batchLoop_nonempty {α : Type} (tok : α → Nat) (L : Nat) :
    ∀ (docs : List α) (ct : Nat) (cd : List α) (bs : List (List α)),
      (cd = [] → ct = 0) →
      batchLoop tok L docs [] ct cd = Except.ok bs →
      ∀ b ∈ bs, b ≠ [] := by
  intro docs
  induction docs with
  | nil =>
      intro ct cd bs hinv h
      by_cases hcd : cd.isEmpty
      · simp only [batchLoop, if_pos hcd, Except.ok.injEq] at h
        subst h; intro b hb; simp at hb
      · simp only [batchLoop, if_neg hcd, Except.ok.injEq] at h
        subst h
        intro b hb
        simp only [List.nil_append, List.mem_singleton] at hb
        subst hb
        simpa [List.isEmpty_iff] using hcd
  | cons d rest ih =>
      intro ct cd bs hinv h
      by_cases h1 : tok d > L
      · simp [batchLoop, h1] at h
      · by_cases h2 : ct + tok d > L
        · simp only [batchLoop, if_neg h1, if_pos h2, List.nil_append] at h
          rw [show [cd] = [cd] ++ ([] : List (List α)) by simp,
            batchLoop_append] at h
          cases hrec : batchLoop tok L rest [] (tok d) [d] with
          | error e => rw [hrec] at h; simp [Except.map] at h
          | ok bs2 =>
              rw [hrec] at h
              simp only [Except.map, Except.ok.injEq] at h
              subst h
              intro b hb
              rcases List.mem_append.mp hb with hb | hb
              · simp only [List.mem_singleton] at hb
                subst hb
                intro hnil
                have := hinv hnil
                subst this
                simp at h2
                exact h1 (lt_of_lt_of_le h2 le_rfl)
              · exact ih (tok d) [d] bs2 (by simp) hrec b hb
        · simp only [batchLoop, if_neg h1, if_neg h2] at h
          exact ih (ct + tok d) (cd ++ [d]) bs (by simp) h

/-- When every remaining document fits within the limit, the loop cannot
raise: it returns some list of batches. -/
theorem batchLoop_ok {α : Type} (tok : α → Nat) (L : Nat) :
    ∀ (docs : List α) (bs0 : List (List α)) (ct : Nat) (cd : List α),
      (∀ d ∈ docs, tok d ≤ L) →
      ∃ bs, batchLoop tok L docs bs0 ct cd = Except.ok bs := by
  intro docs
  induction docs with
  | nil =>
      intro bs0 ct cd _
      by_cases hcd : cd.isEmpty <;> simp [batchLoop, hcd]
  | cons d rest ih =>
      intro bs0 ct cd hfit
      have hd : tok d ≤ L := hfit d (List.mem_cons_self d rest)
      have hrest : ∀ x ∈ rest, tok x ≤ L := fun x hx =>
        hfit x (List.mem_cons_of_mem d hx)
      by_cases h2 : ct + tok d > L
      · simp only [batchLoop, if_neg (not_lt_of_le hd), if_pos h2]
        exact ih (bs0 ++ [cd]) (tok d) [d] hrest
      · simp only [batchLoop, if_neg (not_lt_of_le hd), if_neg h2]
        exact ih bs0 (ct + tok d) (cd ++ [d]) hrest

/-- Reaching the first oversized document raises the `ValueError` built
from its token count, whatever the loop state and whatever follows. -/
theorem batchLoop_error {α : Type} (tok : α → Nat) (L : Nat) :
    ∀ (pre : List α) (d : α) (post : List α) (bs0 : List (List α))
        (ct : Nat) (cd : List α),
      (∀ x ∈ pre, tok x ≤ L) → L < tok d →
      batchLoop tok L (pre ++ d :: post) bs0 ct cd =
        Except.error (oversizedMsg (tok d)) := by
  intro pre
  induction pre with
  | nil =>
      intro d post bs0 ct cd _ hd
      simp [batchLoop, hd]
  | cons x pre ih =>
      intro d post bs0 ct cd hpre hd
      have hx : tok x ≤ L := hpre x (List.mem_cons_self x pre)
      have hpre2 : ∀ y ∈ pre, tok y ≤ L := fun y hy =>
        hpre y (List.mem_cons_of_mem x hy)
      by_cases h2 : ct + tok x > L
      · simp only [List.cons_append, batchLoop, if_neg (not_lt_of_le hx),
          if_pos h2]
        exact ih d post (bs0 ++ [cd]) (tok x) [x] hpre2 hd
      · simp only [List.cons_append, batchLoop, if_neg (not_lt_of_le hx),
          if_neg h2]
        exact ih d post bs0 (ct + tok x) (cd ++ [x]) hpre2 hd

/-- The loop only consults the tokenizer on the documents it processes:
two tokenizers agreeing on every remaining document yield the same run. -/
theorem batchLoop_congr {α : Type} (L : Nat) (tok1 tok2 : α → Nat) :
    ∀ (docs : List α) (bs0 : List (List α)) (ct : Nat) (cd : List α),
      (∀ d ∈ docs, tok1 d = tok2 d) →
      batchLoop tok1 L docs bs0 ct cd = batchLoop tok2 L docs bs0 ct cd := by
  intro docs
  induction docs with
  | nil => intro bs0 ct cd _; rfl
  | cons d rest ih =>
      intro bs0 ct cd hagree
      have hd : tok1 d = tok2 d := hagree d (List.mem_cons_self d rest)
      have hrest : ∀ x ∈ rest, tok1 x = tok2 x := fun x hx =>
        hagree x (List.mem_cons_of_mem d hx)
      simp only [batchLoop, hd]
      by_cases h1 : tok2 d > L
      · simp [h1]
      · by_cases h2 : ct + tok2 d > L
        · simp only [if_neg h1, if_pos h2]
          exact ih (bs0 ++ [cd]) (tok2 d) [d] hrest
        · simp only [if_neg h1, if_neg h2]
          exact ih bs0 (ct + tok2 d) (cd ++ [d]) hrest

/-- The maximal prefix the greedy loop would add to an open batch whose
running total is `ct`, paired with the remaining documents.  This is a
proof device: it is not part of the source, but characterises how
`batchLoop` fills one batch. -/
def greedySplit {α : Type} (tok : α → Nat) (L : Nat) :
    Nat → List α → List α × List α
  | _, [] => ([], [])
  | ct, d :: rest =>
      if ct + tok d > L then ([], d :: rest)
      else
        let pr := greedySplit tok L (ct + tok d) rest
        (d :: pr.1, pr.2)

theorem greedySplit_append {α : Type} (tok : α → Nat) (L : Nat) :
    ∀ (docs : List α) (ct : Nat),
      (greedySplit tok L ct docs).1 ++ (greedySplit tok L ct docs).2 = docs := by
  intro docs
  induction docs with
  | nil => intro ct; rfl
  | cons d rest ih =>
      intro ct
      by_cases h : ct + tok d > L
      · simp [greedySplit, h]
      · simp [greedySplit, h, ih]

/-- Any prefix of the input that still fits on top of `ct` is no longer
than the greedy prefix. -/
theorem greedySplit_max {α : Type} (tok : α → Nat) (L : Nat) :
    ∀ (a : List α) (ct : Nat) (b : List α),
      ct + tokSum tok a ≤ L →
      a.length ≤ (greedySplit tok L ct (a ++ b)).1.length := by
  intro a
  induction a with
  | nil => intro ct b _; simp
  | cons x a ih =>
      intro ct b hsum
      have hts : tokSum tok (x :: a) = tok x + tokSum tok a := by
        simp [tokSum]
      rw [hts] at hsum
      have hx : ct + tok x ≤ L := by omega
      simp only [List.cons_append, greedySplit, if_neg (not_lt_of_le hx)]
      simp only [List.length_cons, Nat.succ_le_succ_iff]
      apply ih
      omega

/-- One-batch recurrence for the loop: with a non-empty open batch, the
loop extends it by the greedy prefix, and either finishes (nothing left)
or emits it and restarts on the remainder with fresh state. -/
theorem batchLoop_greedy {α : Type} (tok : α → Nat) (L : Nat) :
    ∀ (docs : List α) (ct : Nat) (cd : List α),
      (∀ d ∈ docs, tok d ≤ L) → cd ≠ [] →
      batchLoop tok L docs [] ct cd =
        if (greedySplit tok L ct docs).2.isEmpty then
          Except.ok [cd ++ (greedySplit tok L ct docs).1]
        else
          (batchLoop tok L (greedySplit tok L ct docs).2 [] 0 []).map
            (fun bs => (cd ++ (greedySplit tok L ct docs).1) :: bs) := by
  intro docs
  induction docs with
  | nil =>
      intro ct cd _ hcd
      have hcd2 : cd.isEmpty = false := by
        simpa [List.isEmpty_iff] using hcd
      simp [batchLoop, greedySplit, hcd2]
  | cons d rest ih =>
      intro ct cd hfit hcd
      have hd : tok d ≤ L := hfit d (List.mem_cons_self d rest)
      have hrest : ∀ x ∈ rest, tok x ≤ L := fun x hx =>
        hfit x (List.mem_cons_of_mem d hx)
      by_cases h2 : ct + tok d > L
      · have hstep : batchLoop tok L (d :: rest) [] 0 [] =
            batchLoop tok L rest [] (tok d) [d] := by
          have h0 : ¬ 0 + tok d > L := by omega
          simp [batchLoop, if_neg (not_lt_of_le hd), if_neg h0]
        simp only [greedySplit, if_pos h2, List.isEmpty_cons, Bool.false_eq_true,
          if_false, hstep]
        simp only [batchLoop, if_neg (not_lt_of_le hd), if_pos h2,
          List.nil_append]
        rw [batchLoop_acc]
        cases batchLoop tok L rest [] (tok d) [d] with
        | error e => simp [Except.map]
        | ok bs => simp [Except.map]
      · simp only [batchLoop, if_neg (not_lt_of_le hd), if_neg h2]
        rw [ih (ct + tok d) (cd ++ [d]) hrest (by simp)]
        simp only [greedySplit, if_neg h2]
        by_cases hr : (greedySplit tok L (ct + tok d) rest).2.isEmpty
        · simp [hr]
        · simp [hr]

/-- Top-level recurrence of `batch_docs` on a non-empty, all-fitting
input: the first output batch is the greedy prefix, and the rest is
`batch_docs` of the remainder. -/
theorem batch_docs_greedy {α : Type} (tok : α → Nat) (L : Nat)
    (d : α) (rest : List α) (hfit : ∀ x ∈ d :: rest, tok x ≤ L) :
    batch_docs tok L (d :: rest) =
      if (greedySplit tok L 0 (d :: rest)).2.isEmpty then
        Except.ok [(greedySplit tok L 0 (d :: rest)).1]
      else
        (batch_docs tok L (greedySplit tok L 0 (d :: rest)).2).map
          (fun bs => (greedySplit tok L 0 (d :: rest)).1 :: bs) := by
  have hd : tok d ≤ L := hfit d (List.mem_cons_self d rest)
  have hrest : ∀ x ∈ rest, tok x ≤ L := fun x hx =>
    hfit x (List.mem_cons_of_mem d hx)
  have h0 : ¬ 0 + tok d > L := by omega
  show batchLoop tok L (d :: rest) [] 0 [] = _
  simp only [batchLoop, if_neg (not_lt_of_le hd), if_neg h0, List.nil_append]
  rw [batchLoop_greedy tok L rest (0 + tok d) [d] hrest (by simp)]
  simp only [greedySplit, Nat.zero_add, batch_docs,
    if_neg (not_lt_of_le hd)]
  rfl

/-- An order-preserving partition of the input into consecutive batches,
each of token sum at most the limit.  This is the specification-side
notion the minimality claim quantifies over. -/
def ValidPartition {α : Type} (tok : α → Nat) (L : Nat)
    (docs : List α) (Q : List (List α)) : Prop :=
  Q.flatten = docs ∧ ∀ q ∈ Q, tokSum tok q ≤ L

/-- Dropping a prefix of the input from a valid partition leaves a valid
partition of the remaining suffix with no more batches. -/
theorem validPartition_suffix {α : Type} (tok : α → Nat) (L : Nat) :
    ∀ (Q : List (List α)) (a b : List α),
      Q.flatten = a ++ b → (∀ q ∈ Q, tokSum tok q ≤ L) →
      ∃ Q2 : List (List α), Q2.flatten = b ∧ (∀ q ∈ Q2, tokSum tok q ≤ L) ∧
        Q2.length ≤ Q.length := by
  intro Q
  induction Q with
  | nil =>
      intro a b hj _
      simp only [List.flatten_nil] at hj
      rcases List.append_eq_nil.mp hj.symm with ⟨_, hb⟩
      exact ⟨[], by simp [hb], by simp, le_rfl⟩
  | cons q Qs ih =>
      intro a b hj hs
      simp only [List.flatten_cons] at hj
      rcases List.append_eq_append_iff.mp hj with ⟨t, ha, hf⟩ | ⟨t, hq, hb⟩
      · rcases ih t b hf (fun x hx => hs x (List.mem_cons_of_mem q hx)) with
          ⟨Q2, hQ2j, hQ2s, hQ2l⟩
        exact ⟨Q2, hQ2j, hQ2s, le_trans hQ2l (Nat.le_succ _)⟩
      · refine ⟨t :: Qs, by simp [hb], ?_, le_rfl⟩
        intro x hx
        rcases List.mem_cons.mp hx with hx | hx
        · subst hx
          have hqs : tokSum tok q ≤ L := hs q (List.mem_cons_self q Qs)
          rw [hq, tokSum_append] at hqs
          omega
        · exact hs x (List.mem_cons_of_mem q hx)

/-- Fuel-indexed minimality: the greedy batching uses no more batches
than any valid partition of the same input. -/
theorem batch_docs_min_aux {α : Type} (tok : α → Nat) (L : Nat) :
    ∀ (n : Nat) (docs : List α), docs.length ≤ n →
      (∀ d ∈ docs, tok d ≤ L) →
      ∀ (bs Q : List (List α)),
        batch_docs tok L docs = Except.ok bs →
        Q.flatten = docs → (∀ q ∈ Q, tokSum tok q ≤ L) →
        bs.length ≤ Q.length := by
  intro n
  induction n with
  | zero =>
      intro docs hlen hfit bs Q hok hQj hQs
      have hnil : docs = [] := List.eq_nil_of_length_eq_zero
        (Nat.le_zero.mp hlen)
      subst hnil
      simp only [batch_docs, batchLoop, List.isEmpty_nil, if_pos,
        Except.ok.injEq] at hok
      subst hok
      simp
  | succ n ih =>
      intro docs hlen hfit bs Q hok hQj hQs
      cases docs with
      | nil =>
          simp only [batch_docs, batchLoop, List.isEmpty_nil, if_pos,
            Except.ok.injEq] at hok
          subst hok
          simp
      | cons d rest =>
          rw [batch_docs_greedy tok L d rest hfit] at hok
          have hpr : (greedySplit tok L 0 (d :: rest)).1 ++
              (greedySplit tok L 0 (d :: rest)).2 = d :: rest :=
            greedySplit_append tok L (d :: rest) 0
          have hd : tok d ≤ L := hfit d (List.mem_cons_self d rest)
          have h0 : ¬ 0 + tok d > L := by omega
          have hplen : 1 ≤ (greedySplit tok L 0 (d :: rest)).1.length := by
            simp [greedySplit, Nat.zero_add, if_neg (not_lt_of_le hd)]
          have hQne : Q ≠ [] := by
            intro hQ
            subst hQ
            simp at hQj
          cases hrE : (greedySplit tok L 0 (d :: rest)).2.isEmpty with
          | true =>
              rw [if_pos hrE] at hok
              have hbs : bs = [(greedySplit tok L 0 (d :: rest)).1] := by
                cases hok
                rfl
              subst hbs
              simpa using List.length_pos_of_ne_nil hQne
          | false =>
              rw [if_neg (by simp [hrE])] at hok
              cases hrec : batch_docs tok L (greedySplit tok L 0 (d :: rest)).2 with
              | error e => rw [hrec] at hok; simp [Except.map] at hok
              | ok bs2 =>
                  rw [hrec] at hok
                  simp only [Except.map, Except.ok.injEq] at hok
                  subst hok
                  cases Q with
                  | nil => exact absurd rfl hQne
                  | cons q Qs =>
                      simp only [List.flatten_cons] at hQj
                      have hqfit : 0 + tokSum tok q ≤ L := by
                        have := hQs q (List.mem_cons_self q Qs)
                        omega
                      have hqmax : q.length ≤
                          (greedySplit tok L 0 (d :: rest)).1.length := by
                        have := greedySplit_max tok L q 0 Qs.flatten hqfit
                        rw [hQj] at this
                        exact this
                      have hQsfit : ∀ x ∈ Qs, tokSum tok x ≤ L := fun x hx =>
                        hQs x (List.mem_cons_of_mem q hx)
                      have hrfit : ∀ x ∈ (greedySplit tok L 0 (d :: rest)).2,
                          tok x ≤ L := by
                        intro x hx
                        apply hfit
                        rw [← hpr]
                        exact List.mem_append_right _ hx
                      have hrlen : (greedySplit tok L 0 (d :: rest)).2.length ≤ n := by
                        have := congrArg List.length hpr
                        simp only [List.length_append, List.length_cons] at this
                        simp only [List.length_cons] at hlen
                        omega
                      have hsplit : q ++ Qs.flatten =
                          (greedySplit tok L 0 (d :: rest)).1 ++
                            (greedySplit tok L 0 (d :: rest)).2 := by
                        rw [hQj, hpr]
                      rcases List.append_eq_append_iff.mp hsplit with
                        ⟨t, hpt, hft⟩ | ⟨t, hqt, hrt⟩
                      · rcases validPartition_suffix tok L Qs t
                            (greedySplit tok L 0 (d :: rest)).2 hft hQsfit with
                          ⟨Q2, hQ2j, hQ2s, hQ2l⟩
                        have := ih (greedySplit tok L 0 (d :: rest)).2 hrlen
                          hrfit bs2 Q2 hrec hQ2j hQ2s
                        simp only [List.length_cons]
                        omega
                      · have ht : t = [] := by
                          have := congrArg List.length hqt
                          simp only [List.length_append] at this
                          have : t.length = 0 := by omega
                          exact List.eq_nil_of_length_eq_zero this
                        subst ht
                        simp only [List.nil_append] at hrt
                        have := ih (greedySplit tok L 0 (d :: rest)).2 hrlen
                          hrfit bs2 Qs hrec hrt.symm hQsfit
                        simp only [List.length_cons]
                        omega

/-- Any input containing an oversized document splits at the first such
document, with everything before it within the limit. -/
theorem exists_first_oversized {α : Type} (tok : α → Nat) (L : Nat) :
    ∀ docs : List α, (∃ d ∈ docs, L < tok d) →
      ∃ pre d post, docs = pre ++ d :: post ∧
        (∀ x ∈ pre, tok x ≤ L) ∧ L < tok d := by
  intro docs
  induction docs with
  | nil => intro h; simp at h
  | cons a rest ih =>
      intro h
      by_cases ha : L < tok a
      · exact ⟨[], a, rest, rfl, by simp, ha⟩
      · have hrest : ∃ d ∈ rest, L < tok d := by
          rcases h with ⟨d, hd, hover⟩
          rcases List.mem_cons.mp hd with rfl | hd
          · exact absurd hover ha
          · exact ⟨d, hd, hover⟩
        rcases ih hrest with ⟨pre, d, post, hsplit, hpre, hover⟩
        refine ⟨a :: pre, d, post, by rw [hsplit]; rfl, ?_, hover⟩
        intro x hx
        rcases List.mem_cons.mp hx with rfl | hx
        · exact le_of_not_lt ha
        · exact hpre x hx

/-- C1: for every document sequence, tokenizer and positive token limit
under which no single document's token count exceeds the limit, a
successful `batch_docs` call is itself a valid order-preserving partition
and uses the minimum possible number of batches among all such
partitions whose per-batch token sums stay within the limit. -/
theorem claim_C1_minimal_batching {α : Type} (tok : α → Nat)
    (token_limit : Nat) (docs : List α) (_hpos : 0 < token_limit)
    (hfit : ∀ d ∈ docs, tok d ≤ token_limit) (bs : List (List α))
    (hok : batch_docs tok token_limit docs = Except.ok bs) :
    ValidPartition tok token_limit docs bs ∧
      ∀ Q : List (List α), ValidPartition tok token_limit docs Q →
        bs.length ≤ Q.length := by
  refine ⟨⟨?_, ?_⟩, ?_⟩
  · simpa using batchLoop_join tok token_limit docs 0 [] bs hok
  · exact batchLoop_sums tok token_limit docs 0 [] bs rfl (Nat.zero_le _) hok
  · intro Q hQ
    exact batch_docs_min_aux tok token_limit docs.length docs le_rfl hfit
      bs Q hok hQ.1 hQ.2

theorem claim_C1_minimal_batching_witness :
    ([[1, 2], [3]] : List (List Nat)).length ≤
      ([[1], [2], [3]] : List (List Nat)).length :=
  (claim_C1_minimal_batching (fun n => n) 3 [1, 2, 3] (by decide) (by decide)
      [[1, 2], [3]] (by rfl)).2 [[1], [2], [3]] ⟨by rfl, by decide⟩

/-- C2: on every successful call, concatenating the returned batches in
order reproduces the original input sequence exactly — every document
appears exactly once, in its original relative position. -/
theorem claim_C2_concat_exact {α : Type} (tok : α → Nat) (token_limit : Nat)
    (docs : List α) (bs : List (List α))
    (hok : batch_docs tok token_limit docs = Except.ok bs) :
    bs.flatten = docs := by
  simpa using batchLoop_join tok token_limit docs 0 [] bs hok

theorem claim_C2_concat_exact_witness :
    ([[1, 2], [3]] : List (List Nat)).flatten = [1, 2, 3] :=
  claim_C2_concat_exact (fun n => n) 3 [1, 2, 3] [[1, 2], [3]] (by rfl)

/-- C3: every batch in a successful output has token sum at most the
configured limit. -/
theorem claim_C3_batch_sums {α : Type} (tok : α → Nat) (token_limit : Nat)
    (docs : List α) (bs : List (List α))
    (hok : batch_docs tok token_limit docs = Except.ok bs) :
    ∀ b ∈ bs, tokSum tok b ≤ token_limit :=
  batchLoop_sums tok token_limit docs 0 [] bs rfl (Nat.zero_le _) hok

theorem claim_C3_batch_sums_witness :
    tokSum (fun n => n) [1, 2] ≤ 3 :=
  claim_C3_batch_sums (fun n => n) 3 [1, 2, 3] [[1, 2], [3]] (by rfl)
    [1, 2] (by decide)

/-- C4 as stated is false on the code: the raised error carries only the
token count, so two inputs whose offending documents differ produce the
identical error, which therefore cannot identify the offending
document. -/
theorem claim_C4_counterexample :
    batch_docs (fun _ : Nat => 4) 3 [0] = batch_docs (fun _ : Nat => 4) 3 [1] ∧
    batch_docs (fun _ : Nat => 4) 3 [0] = Except.error (oversizedMsg 4) ∧
    (0 : Nat) ≠ 1 :=
  ⟨rfl, rfl, by decide⟩

/-- C4 (amended): an input containing a document whose token count
strictly exceeds the limit makes `batch_docs` raise a `ValueError` whose
message reports the first offending document's token count (the message
does not identify the document itself); conversely, if no document's
count exceeds the limit, no error is raised; a document is never split
across batches. -/
theorem claim_C4_oversized_error {α : Type} (tok : α → Nat)
    (token_limit : Nat) (docs : List α) :
    ((∀ d ∈ docs, tok d ≤ token_limit) →
        ∃ bs, batch_docs tok token_limit docs = Except.ok bs) ∧
    (∀ pre d post, docs = pre ++ d :: post →
        (∀ x ∈ pre, tok x ≤ token_limit) → token_limit < tok d →
        batch_docs tok token_limit docs =
          Except.error (oversizedMsg (tok d))) ∧
    ((∃ d ∈ docs, token_limit < tok d) →
        ∃ e, batch_docs tok token_limit docs = Except.error e) := by
  refine ⟨?_, ?_, ?_⟩
  · intro hfit
    exact batchLoop_ok tok token_limit docs [] 0 [] hfit
  · intro pre d post hsplit hpre hd
    subst hsplit
    exact batchLoop_error tok token_limit pre d post [] 0 [] hpre hd
  · intro hover
    rcases exists_first_oversized tok token_limit docs hover with
      ⟨pre, d, post, hsplit, hpre, hd⟩
    subst hsplit
    exact ⟨oversizedMsg (tok d),
      batchLoop_error tok token_limit pre d post [] 0 [] hpre hd⟩

theorem claim_C4_oversized_error_witness :
    batch_docs (fun n : Nat => n) 3 ([1] ++ 4 :: [1]) =
      Except.error (oversizedMsg 4) :=
  (claim_C4_oversized_error (fun n : Nat => n) 3 ([1] ++ 4 :: [1])).2.1
    [1] 4 [1] rfl (by decide) (by decide)

/-- C5: hitting an oversized document aborts the whole call — no list of
batches is returned, however many documents preceded it, and the result
does not depend on the documents after it. -/
theorem claim_C5_no_partial_results {α : Type} (tok : α → Nat)
    (token_limit : Nat) (pre : List α) (d : α) (post post2 : List α)
    (hpre : ∀ x ∈ pre, tok x ≤ token_limit) (hd : token_limit < tok d) :
    (∀ bs, batch_docs tok token_limit (pre ++ d :: post) ≠ Except.ok bs) ∧
    batch_docs tok token_limit (pre ++ d :: post) =
      batch_docs tok token_limit (pre ++ d :: post2) := by
  have h1 := batchLoop_error tok token_limit pre d post [] 0 [] hpre hd
  have h2 := batchLoop_error tok token_limit pre d post2 [] 0 [] hpre hd
  simp only [batch_docs]
  rw [h1, h2]
  simp

theorem claim_C5_no_partial_results_witness :
    batch_docs (fun n : Nat => n) 3 ([1, 2] ++ 9 :: [1]) =
      batch_docs (fun n : Nat => n) 3 ([1, 2] ++ 9 :: [2, 2]) :=
  (claim_C5_no_partial_results (fun n : Nat => n) 3 [1, 2] 9 [1] [2, 2]
      (by decide) (by decide)).2

/-- C6: the empty input sequence with any positive limit yields the
empty sequence of batches and raises no error. -/
theorem claim_C6_empty_input {α : Type} (tok : α → Nat) (token_limit : Nat)
    (_hpos : 0 < token_limit) :
    batch_docs tok token_limit ([] : List α) = Except.ok [] := rfl

theorem claim_C6_empty_input_witness :
    batch_docs (fun n : Nat => n) 1 ([] : List Nat) = Except.ok [] :=
  claim_C6_empty_input (fun n : Nat => n) 1 (by decide)

/-- C7: the batcher is deterministic — the result is fully determined by
the input order, the tokenizer's values on the input, and the limit; two
tokenizers agreeing on every input document give identical results. -/
theorem claim_C7_deterministic {α : Type} (tok1 tok2 : α → Nat)
    (token_limit : Nat) (docs : List α)
    (hagree : ∀ d ∈ docs, tok1 d = tok2 d) :
    batch_docs tok1 token_limit docs = batch_docs tok2 token_limit docs :=
  batchLoop_congr token_limit tok1 tok2 docs [] 0 [] hagree

theorem claim_C7_deterministic_witness :
    batch_docs (fun n : Nat => n) 3 [1, 2] =
      batch_docs (fun n : Nat => n + 0) 3 [1, 2] :=
  claim_C7_deterministic (fun n => n) (fun n => n + 0) 3 [1, 2] (by decide)

/-- C8: batching the concatenation of two batch sets already produced by
the batcher under the same limit gives the same result as batching the
concatenation of the original flattened sequences. -/
theorem claim_C8_idempotent {α : Type} (tok : α → Nat) (token_limit : Nat)
    (docs1 docs2 : List α) (B1 B2 : List (List α))
    (h1 : batch_docs tok token_limit docs1 = Except.ok B1)
    (h2 : batch_docs tok token_limit docs2 = Except.ok B2) :
    batch_docs tok token_limit (B1.flatten ++ B2.flatten) =
      batch_docs tok token_limit (docs1 ++ docs2) := by
  have e1 : B1.flatten = docs1 := by
    simpa using batchLoop_join tok token_limit docs1 0 [] B1 h1
  have e2 : B2.flatten = docs2 := by
    simpa using batchLoop_join tok token_limit docs2 0 [] B2 h2
  rw [e1, e2]

theorem claim_C8_idempotent_witness :
    batch_docs (fun n : Nat => n) 3
        (([[1, 2]] : List (List Nat)).flatten ++ ([[3]] : List (List Nat)).flatten) =
      batch_docs (fun n : Nat => n) 3 ([1, 2] ++ [3]) :=
  claim_C8_idempotent (fun n => n) 3 [1, 2] [3] [[1, 2]] [[3]]
    (by rfl) (by rfl)

/-- C9: a successful call never returns an empty batch, neither
mid-stream nor as the final flush. -/
theorem claim_C9_no_empty_batches {α : Type} (tok : α → Nat)
    (token_limit : Nat) (docs : List α) (bs : List (List α))
    (hok : batch_docs tok token_limit docs = Except.ok bs) :
    ∀ b ∈ bs, b ≠ [] :=
  batchLoop_nonempty tok token_limit docs 0 [] bs (fun _ => rfl) hok

theorem claim_C9_no_empty_batches_witness :
    ([3] : List Nat) ≠ [] :=
  claim_C9_no_empty_batches (fun n => n) 3 [1, 2, 3] [[1, 2], [3]]
    (by rfl) [3] (by decide)

/-- C10 as stated is false on the code: a zero-token document may join
the batch of a document whose count equals the limit, so that document
does not end up alone even though it could not join the previous open
batch. -/
theorem claim_C10_counterexample :
    batch_docs (fun n : Nat => n) 5 [1, 5, 0] = Except.ok [[1], [5, 0]] ∧
    (5 : Nat) = 5 ∧ ([5, 0] : List Nat).length ≠ 1 :=
  ⟨rfl, rfl, by decide⟩

/-- C10 (amended): the oversized check is strict, so a document whose
token count equals the limit is accepted and the batcher succeeds
whenever every count is at most the limit; moreover, when every
document's count is positive, a document whose count equals the limit
occupies a batch by itself whose total is exactly the limit — though a
zero-token document may otherwise share that batch. -/
theorem claim_C10_exact_limit {α : Type} (tok : α → Nat) (token_limit : Nat)
    (docs : List α) (hfit : ∀ d ∈ docs, tok d ≤ token_limit) :
    (∃ bs, batch_docs tok token_limit docs = Except.ok bs) ∧
    (∀ bs, batch_docs tok token_limit docs = Except.ok bs →
      (∀ d ∈ docs, 0 < tok d) →
      ∀ b ∈ bs, ∀ d ∈ b, tok d = token_limit →
        b = [d] ∧ tokSum tok b = token_limit) := by
  constructor
  · exact batchLoop_ok tok token_limit docs [] 0 [] hfit
  · intro bs hok hposall b hb d hd hdl
    have hsum : tokSum tok b ≤ token_limit :=
      batchLoop_sums tok token_limit docs 0 [] bs rfl (Nat.zero_le _) hok b hb
    have hflat : bs.flatten = docs := by
      simpa using batchLoop_join tok token_limit docs 0 [] bs hok
    have hmemdocs : ∀ x ∈ b, x ∈ docs := by
      intro x hx
      rw [← hflat]
      exact List.mem_flatten.mpr ⟨b, hb, hx⟩
    rcases List.append_of_mem hd with ⟨u, v, huv⟩
    subst huv
    have hsum2 : tokSum tok (u ++ d :: v) =
        tokSum tok u + (tok d + tokSum tok v) := by
      rw [tokSum_append]
      simp [tokSum]
    have huv0 : tokSum tok u = 0 ∧ tokSum tok v = 0 := by
      constructor <;> omega
    have hunil : u = [] := by
      cases u with
      | nil => rfl
      | cons a u2 =>
          exfalso
          have hpa : 0 < tok a := hposall a (hmemdocs a (by simp))
          have : tokSum tok (a :: u2) = tok a + tokSum tok u2 := by
            simp [tokSum]
          omega
    have hvnil : v = [] := by
      cases v with
      | nil => rfl
      | cons a v2 =>
          exfalso
          have hpa : 0 < tok a := hposall a (hmemdocs a (by simp))
          have : tokSum tok (a :: v2) = tok a + tokSum tok v2 := by
            simp [tokSum]
          omega
    subst hunil
    subst hvnil
    exact ⟨rfl, by simp [tokSum, hdl]⟩

theorem claim_C10_exact_limit_witness :
    ([5] : List Nat) = [5] ∧ tokSum (fun n : Nat => n) [5] = 5 :=
  (claim_C10_exact_limit (fun n : Nat => n) 5 [2, 5] (by decide)).2
    [[2], [5]] (by rfl) (by decide) [5] (by decide) 5 (by decide) rfl

end TokenBatcher
